import Mathlib

/-!
Verification of the directory-crawl / playlist engine of `src/script/main.js`.

Shallow embedding conventions:
* JS strings are Lean `String`s; the JS string primitives used by the source
  (`startsWith`, `endsWith`, `slice`, `toLowerCase`) are modelled on `String.data`
  (`jsStartsWith`, `jsEndsWith`, `jsSliceFrom`, `jsToLowerCase`).
* A parsed `URL` object is modelled by its three observed components
  (`origin`, `pathname`, `search`).  URL resolution (`new URL(href, base)`) is an
  external browser primitive; the development is parameterised over an arbitrary
  resolution function `resolve : String → Url → Url`, and concrete witnesses use
  `demoResolve`, a faithful implementation of RFC 3986 reference resolution for
  the reference forms appearing in the examples (absolute paths and relative
  paths without dot segments, with optional query).
* JS `undefined` is `Option.none`; fallible operations return `Option`/`Except`.
-/

namespace AudioPlayer

/-- Model of `String.prototype.startsWith`. -/
def jsStartsWith (s pre : String) : Bool :=
  pre.data.isPrefixOf s.data

/-- Model of `String.prototype.endsWith`. -/
def jsEndsWith (s suf : String) : Bool :=
  suf.data.isSuffixOf s.data

/-- Model of `String.prototype.toLowerCase` (ASCII-adequate). -/
def jsToLowerCase (s : String) : String :=
  ⟨s.data.map Char.toLower⟩

/-- Model of `String.prototype.slice(start)` (one-argument form): a negative
start counts from the end of the string, and is clamped at 0. -/
def jsSliceFrom (s : String) (start : Int) : String :=
  let len : Int := s.data.length
  let b : Int := if start < 0 then max (len + start) 0 else min start len
  ⟨s.data.drop b.toNat⟩

/-- The components of a browser `URL` object observed by the source:
`origin`, `pathname` and `search` (the query string including its `?`). -/
structure Url where
  origin : String
  pathname : String
  search : String
deriving DecidableEq, Repr

/-- Source line 1: `const AUDIO_ROOT = "audio/"`. -/
def AUDIO_ROOT : String := "audio/"

/-- Source line 2: the audio-extension allow-list. -/
def AUDIO_EXTENSIONS : List String :=
  [".mp3", ".wav", ".ogg", ".m4a", ".aac", ".flac", ".webm"]

/-- Source line 24: `path.toLowerCase().endsWith(ext)` over the allow-list. -/
def isAudioPath (path : String) : Bool :=
  AUDIO_EXTENSIONS.any fun ext => jsEndsWith (jsToLowerCase path) ext

/-- Source line 17: `audioRootUrl = new URL(AUDIO_ROOT, window.location.href)`. -/
def audioRootUrl (resolve : String → Url → Url) (location : Url) : Url :=
  resolve AUDIO_ROOT location

/-- Source lines 26-38, `normalizeAudioPath`: resolve `href` against `base`,
reject a cross-origin result, reject a pathname outside the audio root, and
otherwise return the root-relative path (keeping the `audio/` prefix) plus the
query string. -/
def normalizeAudioPath (resolve : String → Url → Url) (location : Url)
    (href : String) (base : Url) : Option String :=
  let url := resolve href base
  if url.origin ≠ location.origin then
    none
  else if ¬ jsStartsWith url.pathname (audioRootUrl resolve location).pathname then
    none
  else
    some ((jsSliceFrom url.pathname
      (((audioRootUrl resolve location).pathname.length : Int) - (AUDIO_ROOT.length : Int))).append
      url.search)

/-! Demo instantiation of the external URL-resolution primitive, used by
concrete witnesses and counterexamples. -/

/-- Split a reference into path part and query part (query keeps its `?`). -/
def splitRefQuery : List Char → List Char × List Char
  | [] => ([], [])
  | c :: cs =>
    if c = '?' then ([], c :: cs)
    else
      let p := splitRefQuery cs
      (c :: p.1, p.2)

/-- The directory of a pathname: everything up to and including the last `/`. -/
def dirnameOf (pathname : String) : String :=
  ⟨(pathname.data.reverse.dropWhile (fun c => c ≠ '/')).reverse⟩

/-- Concrete URL resolution for same-origin references: an absolute-path
reference replaces the whole path, a relative reference is resolved against
the directory of the base path.  Dot segments are not supported (none occur in
the examples below). -/
def demoResolve (href : String) (base : Url) : Url :=
  let p := splitRefQuery href.data
  if p.1.head? = some '/' then
    { origin := base.origin, pathname := ⟨p.1⟩, search := ⟨p.2⟩ }
  else
    { origin := base.origin, pathname := (dirnameOf base.pathname).append ⟨p.1⟩,
      search := ⟨p.2⟩ }

/-- Demo `window.location`. -/
def demoLocation : Url :=
  { origin := "http://localhost:8000", pathname := "/index.html", search := "" }

/-! The directory crawler, source lines 40-90.

The network is modelled by a finite table from canonical directory keys to
fetch outcomes: `.ok links` is a successful listing whose anchor `href`
attribute values are `links` (the DOM parsing and `querySelectorAll("a[href]")`
extraction being external), `.error m` is a non-success HTTP status or a
transport failure with underlying message `m`, and an absent key is a rejected
fetch.  The JS `seen` set of canonical keys is threaded explicitly as a list;
the unbounded JS recursion is modelled with explicit fuel (`none` = fuel
exhausted), and the termination theorem shows that fuel exceeding the number
of distinct server directory keys always suffices. -/

/-- The crawl environment: the external URL resolver, `window.location`, and
the server table. -/
structure CrawlEnv where
  resolve : String → Url → Url
  location : Url
  server : List (String × Except String (List String))

/-- Fetching a canonical key from the server table (`fetch` + `response.ok` +
`response.text()` on source lines 51-55). -/
def lookupFetch : List (String × Except String (List String)) → String →
    Except String (List String)
  | [], _ => .error "Failed to fetch"
  | e :: rest, k => if e.1 = k then e.2 else lookupFetch rest k

/-- Source lines 56-60: the error wrapping a failed directory fetch. -/
def crawlErrorMessage (relativePath cause : String) : String :=
  "Cannot read \"" ++ relativePath ++
    "\". Run with a static server that allows listing the audio directory. (" ++
    cause ++ ")"

/-- Source lines 65-83: the loop over extracted `href` values, skipping empty,
query-only and fragment-only references, normalizing the rest, and splitting
the accepted results into subdirectories (`nested`) and audio files (`found`). -/
def classifyLinks (resolve : String → Url → Url) (location : Url) (base : Url) :
    List String → List String × List String
  | [] => ([], [])
  | href :: rest =>
    let acc := classifyLinks resolve location base rest
    if href = "" ∨ jsStartsWith href "?" ∨ jsStartsWith href "#" then acc
    else
      match normalizeAudioPath resolve location href base with
      | none => acc
      | some normalized =>
        if jsEndsWith normalized "/" then (normalized :: acc.1, acc.2)
        else if isAudioPath normalized then (acc.1, normalized :: acc.2)
        else acc

/-- The sequential loop on source lines 85-87
(`for (const next of nested) found.push(...(await crawlDirectory(next, seen)))`),
abstracted over the recursive call `step`.  A child error propagates and aborts
the whole crawl. -/
def crawlFold (step : String → List String → Option (Except String (List String × List String))) :
    List String → List String → Option (Except String (List String × List String))
  | [], seen => some (.ok ([], seen))
  | next :: rest, seen =>
    match step next seen with
    | none => none
    | some (.error e) => some (.error e)
    | some (.ok (found, seen1)) =>
      match crawlFold step rest seen1 with
      | none => none
      | some (.error e) => some (.error e)
      | some (.ok (more, seen2)) => some (.ok (found ++ more, seen2))

/-- Source lines 40-90, `crawlDirectory(relativePath, seen)`, with explicit
fuel: compute the canonical key, short-circuit on an already-visited directory,
mark it visited, fetch the listing (a failure raises the crawl error), classify
its links, and recurse into the nested directories, returning the audio files
found at all levels together with the final visited set. -/
def crawlStep (env : CrawlEnv) :
    Nat → String → List String → Option (Except String (List String × List String))
  | 0, _, _ => none
  | fuel + 1, relativePath, seen =>
    let dirUrl := env.resolve relativePath env.location
    let canonicalKey := dirUrl.pathname.append dirUrl.search
    if canonicalKey ∈ seen then some (.ok ([], seen))
    else
      let seen1 := canonicalKey :: seen
      match lookupFetch env.server canonicalKey with
      | .error cause => some (.error (crawlErrorMessage relativePath cause))
      | .ok links =>
        let pair := classifyLinks env.resolve env.location dirUrl links
        match crawlFold (crawlStep env fuel) pair.1 seen1 with
        | none => none
        | some (.error e) => some (.error e)
        | some (.ok (more, seen2)) => some (.ok (pair.2 ++ more, seen2))

/-- The top-level call `crawlDirectory()` (source line 252) with its default
arguments `relativePath = AUDIO_ROOT`, `seen = new Set()`, projected to the
returned list of audio paths. -/
def crawlDirectory (env : CrawlEnv) (fuel : Nat) : Option (Except String (List String)) :=
  (crawlStep env fuel AUDIO_ROOT []).map (Except.map Prod.fst)

/-- The distinct canonical directory keys known to the server. -/
def serverKeys (env : CrawlEnv) : Finset String :=
  (env.server.map Prod.fst).toFinset

/-- A server on which the same audio file is reachable through two different
links: the root listing links `sub/` and `a.mp3`, and the `sub/` listing links
`/audio/a.mp3` — the same file as `a.mp3`. -/
def dupEnv : CrawlEnv :=
  { resolve := demoResolve, location := demoLocation,
    server := [("/audio/", .ok ["sub/", "a.mp3"]),
               ("/audio/sub/", .ok ["/audio/a.mp3"])] }

/-- The cyclic listing graph of the spec: directory `audio/` links to
`audio/sub/` and `audio/sub/` links back to `audio/`; each directory lists one
audio file once. -/
def cycEnv : CrawlEnv :=
  { resolve := demoResolve, location := demoLocation,
    server := [("/audio/", .ok ["sub/", "t1.mp3"]),
               ("/audio/sub/", .ok ["/audio/", "t2.mp3"])] }

/-! The order store, source lines 92-108.

`localStorage.getItem(ORDER_STORAGE_KEY)` is modelled as an `Option String`
stored-value.  `JSON.parse` / the subsequent `savedOrder.map` are external
primitives; they are modelled by `jsonParseStringArray`, a concrete parser for
JSON arrays of strings: a `none` result stands for the exception the source
lets escape (a `SyntaxError` from `JSON.parse` on malformed input, or the
`TypeError` from `.map` when the parsed value is not an array of strings). -/

/-- Scanner modes for `jsonParseStringArray`. -/
inductive JsonScanMode
  | expectOpen
  | expectFirstItem
  | expectNextItem
  | inString
  | inEscape
  | afterItem
  | finished
deriving DecidableEq, Repr

/-- JSON whitespace. -/
def isJsonWs (c : Char) : Bool :=
  c = ' ' ∨ c = '\n' ∨ c = '\t' ∨ c = '\r'

/-- JSON string escapes (the `\uXXXX` form is not needed by the examples and
is treated as literal). -/
def unescapeChar (c : Char) : Char :=
  if c = 'n' then '\n' else if c = 't' then '\t' else if c = 'r' then '\r' else c

/-- Single-pass scanner for a JSON array of strings; `cur` accumulates the
current string (reversed), `acc` the parsed items (reversed). -/
def jsonScan : List Char → JsonScanMode → List Char → List String → Option (List String)
  | [], mode, _, acc =>
    match mode with
    | .finished => some acc.reverse
    | _ => none
  | c :: cs, mode, cur, acc =>
    match mode with
    | .expectOpen =>
      if isJsonWs c then jsonScan cs .expectOpen cur acc
      else if c = '[' then jsonScan cs .expectFirstItem cur acc
      else none
    | .expectFirstItem =>
      if isJsonWs c then jsonScan cs .expectFirstItem cur acc
      else if c = ']' then jsonScan cs .finished cur acc
      else if c = '"' then jsonScan cs .inString [] acc
      else none
    | .expectNextItem =>
      if isJsonWs c then jsonScan cs .expectNextItem cur acc
      else if c = '"' then jsonScan cs .inString [] acc
      else none
    | .inString =>
      if c = '"' then jsonScan cs .afterItem [] (String.mk cur.reverse :: acc)
      else if c = '\\' then jsonScan cs .inEscape cur acc
      else jsonScan cs .inString (c :: cur) acc
    | .inEscape => jsonScan cs .inString (unescapeChar c :: cur) acc
    | .afterItem =>
      if isJsonWs c then jsonScan cs .afterItem cur acc
      else if c = ',' then jsonScan cs .expectNextItem cur acc
      else if c = ']' then jsonScan cs .finished cur acc
      else none
    | .finished =>
      if isJsonWs c then jsonScan cs .finished cur acc
      else none

/-- Model of `JSON.parse` restricted to the stored-order domain: `some` on a
JSON array of strings, `none` when the source would throw. -/
def jsonParseStringArray (s : String) : Option (List String) :=
  jsonScan s.data .expectOpen [] []

/-- Escape for `JSON.stringify` of a string. -/
def jsonEscape : List Char → List Char
  | [] => []
  | c :: cs =>
    if c = '"' ∨ c = '\\' then '\\' :: c :: jsonEscape cs
    else c :: jsonEscape cs

/-- Model of `JSON.stringify` on an array of strings. -/
def jsonEncodeStringArray (l : List String) : String :=
  "[" ++ String.intercalate "," (l.map fun s => "\"" ++ String.mk (jsonEscape s.data) ++ "\"") ++ "]"

/-- `Number.MAX_SAFE_INTEGER`. -/
def maxSafeInteger : Nat := 2 ^ 53 - 1

/-- Model of `a.localeCompare(b)` as code-point (lexicographic) comparison. -/
def localeCompare (a b : String) : Int :=
  if a < b then -1 else if b < a then 1 else 0

/-- Source line 94, the argument of `new Map(...)`:
`savedOrder.map((p, index) => [p, index])`, with `i` the index of the head. -/
def rankPairsFrom : List String → Nat → List (String × Nat)
  | [], _ => []
  | p :: rest, i => (p, i) :: rankPairsFrom rest (i + 1)

/-- The `(path, index)` pairs the rank `Map` is built from. -/
def buildRankPairs (savedOrder : List String) : List (String × Nat) :=
  rankPairsFrom savedOrder 0

/-- JS `Map` lookup over an insertion list: a later entry for the same key
overwrites an earlier one. -/
def mapGet : List (String × Nat) → String → Option Nat
  | [], _ => none
  | e :: rest, k =>
    match mapGet rest k with
    | some v => some v
    | none => if e.1 = k then some e.2 else none

/-- Source lines 97-98: `rank.has(a) ? rank.get(a) : Number.MAX_SAFE_INTEGER`. -/
def rankOf (savedOrder : List String) (p : String) : Nat :=
  (mapGet (buildRankPairs savedOrder) p).getD maxSafeInteger

/-- The comparator of source lines 96-103: rank difference when the ranks
differ, `localeCompare` otherwise. -/
def orderComparator (savedOrder : List String) (a b : String) : Int :=
  let aRank := rankOf savedOrder a
  let bRank := rankOf savedOrder b
  if aRank ≠ bRank then (aRank : Int) - (bRank : Int) else localeCompare a b

/-- The sort on source lines 96-103.  JS `Array.prototype.sort(cmp)` is
modelled as a comparison sort placing `a` before `b` when `cmp a b ≤ 0`; the
comparator is total and (on the duplicate-free inputs the source feeds it)
antisymmetric, so the sorted result is canonical. -/
def sortWithSavedOrder (savedOrder paths : List String) : List String :=
  List.insertionSort (fun a b => orderComparator savedOrder a b ≤ 0) paths

/-- Source lines 92-104, `applySavedOrder(paths)` as a function of the stored
value: `JSON.parse(localStorage.getItem(ORDER_STORAGE_KEY) ?? "[]")` followed
by the rank sort.  There is no exception handling here: a malformed stored
value makes the whole call throw (`.error`). -/
def applySavedOrder (stored : Option String) (paths : List String) :
    Except String (List String) :=
  match jsonParseStringArray (stored.getD "[]") with
  | none => .error "SyntaxError: JSON.parse: unexpected character"
  | some savedOrder => .ok (sortWithSavedOrder savedOrder paths)

/-- The merge as the spec describes it (for comparison with the sort the
source performs): paths present in `persisted` first, in their persisted
relative order, intersected with `discovered`; then the paths in `discovered`
absent from `persisted`, sorted lexicographically. -/
def specMergeOrder (discovered persisted : List String) : List String :=
  persisted.filter (fun p => decide (p ∈ discovered))
    ++ List.insertionSort (fun a b : String => a ≤ b)
        (discovered.filter (fun p => !decide (p ∈ persisted)))

/-- Model of `[...new Set(allFound)]` (source line 253): deduplicate keeping
first occurrences in order. -/
def dedupeKeepFirst : List String → List String :=
  go []
where
  go (seenPaths : List String) : List String → List String
    | [] => []
    | x :: xs => if x ∈ seenPaths then go seenPaths xs else x :: go (x :: seenPaths) xs

/-! The playlist model and playback controller, source lines 13-15, 120-186
and 249-276.

The module globals `tracks`, `currentIndex`, `isStopped` together with the
persisted order form the state.  A playlist entry is `Option String`: `some
path` is a track (its display title, a pure function of the path used only for
rendering, is omitted with the rest of the DOM layer), and `none` is the JS
`undefined` that `splice` can insert when `reorderTracks` is called with an
out-of-range source index. -/

structure PlayerState where
  tracks : List (Option String)
  currentIndex : Int
  isStopped : Bool
  stored : Option String
deriving DecidableEq, Repr

/-- The initial state of the module globals (source lines 13-15), with an
arbitrary pre-existing stored order. -/
def initialState (stored : Option String) : PlayerState :=
  { tracks := [], currentIndex := -1, isStopped := true, stored := stored }

/-- Source lines 106-108, `saveOrder()`:
`localStorage.setItem(key, JSON.stringify(tracks.map(t => t.path)))`. -/
def saveOrder (st : PlayerState) : PlayerState :=
  { st with stored := some (jsonEncodeStringArray (st.tracks.filterMap id)) }

/-- Source lines 120-135, `loadTrack(index, autoplay)`: a guard rejects an
empty playlist and out-of-range indices, otherwise `currentIndex` is set and
the source/display updated; the returned flag records whether
`playerElement.play()` was invoked. -/
def loadTrack (st : PlayerState) (index : Int) (autoplay : Bool) : PlayerState × Bool :=
  if st.tracks.length = 0 ∨ index < 0 ∨ index ≥ (st.tracks.length : Int) then (st, false)
  else ({ st with currentIndex := index }, autoplay)

/-- Source lines 137-143, `stopPlayback()` (the media pause/seek and display
updates are external). -/
def stopPlayback (st : PlayerState) : PlayerState :=
  { st with isStopped := true }

/-- Source lines 145-157, `playFromCurrentOrTop()`: report on an empty
playlist, otherwise clear `isStopped`, reset an invalid `currentIndex` to 0 and
load with autoplay. -/
def playFromCurrentOrTop (st : PlayerState) : PlayerState × Bool :=
  if st.tracks.length = 0 then (st, false)
  else
    let st1 := { st with isStopped := false }
    let st2 :=
      if st1.currentIndex < 0 ∨ st1.currentIndex ≥ (st1.tracks.length : Int) then
        { st1 with currentIndex := 0 }
      else st1
    loadTrack st2 st2.currentIndex true

/-- Source lines 159-166, `goToNextTrack()`: return on an empty playlist,
otherwise advance `currentIndex` with the JS `%` (truncating remainder) and
load, with autoplay exactly when not stopped. -/
def goToNextTrack (st : PlayerState) : PlayerState × Bool :=
  if st.tracks.length = 0 then (st, false)
  else
    let ci := Int.tmod (st.currentIndex + 1) (st.tracks.length : Int)
    loadTrack { st with currentIndex := ci } ci (!st.isStopped)

/-- The per-row Play button handler (source lines 214-217):
`isStopped = false; loadTrack(index, true)`. -/
def selectTrack (st : PlayerState) (index : Int) : PlayerState × Bool :=
  loadTrack { st with isStopped := false } index true

/-- Model of `array.splice(i, 1)`: the removed element (if any) and the rest. -/
def spliceRemoveOne (l : List (Option String)) (i : Nat) :
    Option (Option String) × List (Option String) :=
  (l[i]?, l.take i ++ l.drop (i + 1))

/-- Model of `array.splice(i, 0, x)`: insert `x` at `i`, clamped to the end. -/
def spliceInsertOne (l : List (Option String)) (i : Nat) (x : Option String) :
    List (Option String) :=
  l.take i ++ x :: l.drop i

/-- Source lines 168-186, `reorderTracks(fromIndex, toIndex)`.  The two
indices are JS numbers, modelled as `Option Int` with `none` for `NaN`
(`NaN === NaN` is false, so two `NaN`s fall through to the `Number.isNaN`
guards).  The guard rejects equal, `NaN` and negative indices — but not
indices beyond the playlist length.  `[moved] = tracks.splice(f, 1)` yields
`undefined` (`Option.join` of `none`) when `f` is out of range.  After the
splices the source calls `renderPlaylist()` and then `saveOrder()`;
`renderPlaylist` reads `track.title` of every entry and therefore throws on an
`undefined` entry, in which case `saveOrder` is never reached — the returned
flag records whether the save happened. -/
def reorderTracks (st : PlayerState) (fromIdx toIdx : Option Int) : PlayerState × Bool :=
  match fromIdx, toIdx with
  | some f, some t =>
    if f = t ∨ f < 0 ∨ t < 0 then (st, false)
    else
      let removed := spliceRemoveOne st.tracks f.toNat
      let moved : Option String := removed.1.join
      let tracks1 := spliceInsertOne removed.2 t.toNat moved
      let ci :=
        if st.currentIndex = f then t
        else if f < st.currentIndex ∧ t ≥ st.currentIndex then st.currentIndex - 1
        else if f > st.currentIndex ∧ t ≤ st.currentIndex then st.currentIndex + 1
        else st.currentIndex
      let st1 := { st with tracks := tracks1, currentIndex := ci }
      if tracks1.all Option.isSome then (saveOrder st1, true) else (st1, false)
  | _, _ => (st, false)

/-- The pure computation inside the `try` of `loadTracks` (source lines
252-254): the crawl result, deduplication, the lexicographic sort of
`uniquePaths`, and `applySavedOrder`; any raised error propagates. -/
def loadTracksCompute (stored : Option String)
    (crawlResult : Except String (List String)) : Except String (List String) :=
  match crawlResult with
  | .error e => .error e
  | .ok allFound =>
    let uniquePaths :=
      List.insertionSort (fun a b => localeCompare a b ≤ 0) (dedupeKeepFirst allFound)
    applySavedOrder stored uniquePaths

/-- Source lines 249-276, `loadTracks()`, as a function of the crawl outcome:
on success install the ordered tracks (keeping `currentIndex` unless it is now
out of range, and keeping it untouched when the new playlist is empty); on any
caught error clear the playlist and reset `currentIndex` to `-1`.  Note that
`isStopped` is not touched on either path. -/
def loadTracks (st : PlayerState) (crawlResult : Except String (List String)) :
    PlayerState :=
  match loadTracksCompute st.stored crawlResult with
  | .error _ => { st with tracks := [], currentIndex := -1 }
  | .ok orderedPaths =>
    let newTracks := orderedPaths.map some
    if newTracks.length = 0 then { st with tracks := newTracks }
    else
      let ci := if st.currentIndex ≥ (newTracks.length : Int) then -1 else st.currentIndex
      { st with tracks := newTracks, currentIndex := ci }

/-! The event model: one step per public operation.  `refresh` covers the
initial load and the Refresh button with an arbitrary crawl outcome; `select`
and `move` carry the indices the DOM can produce — a row Play click or a drop
target is always an index of a currently rendered row (the playlist is
re-rendered after every mutation), while a drag payload can also fail to parse
(`NaN`). -/

inductive Step : PlayerState → PlayerState → Prop
  | refresh (st : PlayerState) (res : Except String (List String)) :
      Step st (loadTracks st res)
  | play (st : PlayerState) : Step st (playFromCurrentOrTop st).1
  | stop (st : PlayerState) : Step st (stopPlayback st)
  | select (st : PlayerState) (i : Nat) (h : i < st.tracks.length) :
      Step st (selectTrack st (i : Int)).1
  | ended (st : PlayerState) : Step st (goToNextTrack st).1
  | move (st : PlayerState) (fromIdx toIdx : Option Int)
      (hf : fromIdx = none ∨
        ∃ a, fromIdx = some a ∧ 0 ≤ a ∧ a < (st.tracks.length : Int))
      (ht : ∃ b, toIdx = some b ∧ 0 ≤ b ∧ b < (st.tracks.length : Int)) :
      Step st (reorderTracks st fromIdx toIdx).1

/-- Reachability by a sequence of public operations. -/
inductive Reach : PlayerState → PlayerState → Prop
  | refl (s : PlayerState) : Reach s s
  | tail {a b c : PlayerState} : Reach a b → Step b c → Reach a c

/-- The invariant that actually holds of every reachable state:
`currentIndex` is at least `-1`, and it is `-1`, or the playlist is empty (a
refresh that found nothing keeps the old index), or it is a valid index.  The
claimed stronger invariant (`stopped = false → 0 ≤ currentIndex < length`)
fails, because `loadTracks` never touches `isStopped`. -/
def StateInv (s : PlayerState) : Prop :=
  -1 ≤ s.currentIndex ∧
    (s.currentIndex = -1 ∨ s.tracks.length = 0 ∨
      s.currentIndex < (s.tracks.length : Int))

/-! Helper lemmas about the JS string model. -/

theorem isPrefixOf_iff_append : ∀ (p s : List Char),
    p.isPrefixOf s = true ↔ ∃ t, s = p ++ t := by
  intro p
  induction p with
  | nil =>
    intro s
    simp [List.isPrefixOf]
  | cons c cs ih =>
    intro s
    cases s with
    | nil =>
      simp [List.isPrefixOf]
    | cons d ds =>
      simp only [List.isPrefixOf, List.cons_append, Bool.and_eq_true, beq_iff_eq, ih ds]
      constructor
      · rintro ⟨h1, t, h2⟩
        exact ⟨t, by simp [h1, h2]⟩
      · rintro ⟨t, h⟩
        injection h with h1 h2
        exact ⟨h1.symm, t, h2⟩

theorem jsStartsWith_iff_append (s pre : String) :
    jsStartsWith s pre = true ↔ ∃ t, s.data = pre.data ++ t := by
  simpa [jsStartsWith] using isPrefixOf_iff_append pre.data s.data

theorem jsEndsWith_iff_append (s suf : String) :
    jsEndsWith s suf = true ↔ ∃ t, s.data = t ++ suf.data := by
  simp only [jsEndsWith, List.isSuffixOf, isPrefixOf_iff_append]
  constructor
  · rintro ⟨t, h⟩
    refine ⟨t.reverse, ?_⟩
    have := congrArg List.reverse h
    simpa using this
  · rintro ⟨t, h⟩
    refine ⟨t.reverse, ?_⟩
    simp [h]

/-- The normalizer accepts only same-origin URLs whose pathname extends the
audio-root pathname, and what it returns then starts with `audio/`. -/
theorem normalizeAudioPath_some
    (resolve : String → Url → Url) (location : Url) (href : String) (base : Url)
    (hroot : jsEndsWith (audioRootUrl resolve location).pathname AUDIO_ROOT = true)
    (p : String)
    (h : normalizeAudioPath resolve location href base = some p) :
    (resolve href base).origin = location.origin ∧
      jsStartsWith (resolve href base).pathname
        (audioRootUrl resolve location).pathname = true ∧
      jsStartsWith p AUDIO_ROOT = true := by
  classical
  set url := resolve href base with hurl
  by_cases horig : url.origin = location.origin
  · by_cases hpre :
      jsStartsWith url.pathname (audioRootUrl resolve location).pathname = true
    · refine ⟨horig, hpre, ?_⟩
      have hp : p = (jsSliceFrom url.pathname
          (((audioRootUrl resolve location).pathname.length : Int)
            - (AUDIO_ROOT.length : Int))).append url.search := by
        have := h
        unfold normalizeAudioPath at this
        rw [← hurl] at this
        simp [horig, hpre] at this
        exact this.symm
      obtain ⟨rest, hrest⟩ := (jsStartsWith_iff_append _ _).1 hpre
      obtain ⟨pre, hpreEq⟩ := (jsEndsWith_iff_append _ _).1 hroot
      rw [jsStartsWith_iff_append]
      -- string lengths are data lengths
      have hstr : ∀ s : String, s.length = s.data.length := fun _ => rfl
      have hlenRoot : (audioRootUrl resolve location).pathname.data.length
          = pre.length + AUDIO_ROOT.data.length := by
        rw [hpreEq, List.length_append]
      have hlenUrl : url.pathname.data.length
          = pre.length + AUDIO_ROOT.data.length + rest.length := by
        rw [hrest, hpreEq, List.length_append, List.length_append]
      -- compute the slice: it drops exactly the prefix `pre`
      have hslice : (jsSliceFrom url.pathname
          (((audioRootUrl resolve location).pathname.length : Int)
            - (AUDIO_ROOT.length : Int))).data
          = AUDIO_ROOT.data ++ rest := by
        unfold jsSliceFrom
        rw [hstr, hstr, hlenRoot]
        have hnonneg : ¬ (((pre.length + AUDIO_ROOT.data.length : Nat) : Int)
            - (AUDIO_ROOT.data.length : Int) < 0) := by
          push_cast
          omega
        simp only [hnonneg, if_false]
        have hmin : min (((pre.length + AUDIO_ROOT.data.length : Nat) : Int)
            - (AUDIO_ROOT.data.length : Int)) (url.pathname.data.length : Int)
            = (pre.length : Int) := by
          rw [hlenUrl]
          push_cast
          omega
        rw [hmin]
        have htn : ((pre.length : Int)).toNat = pre.length := Int.toNat_natCast _
        rw [htn, hrest, hpreEq, List.append_assoc]
        exact List.drop_left pre (AUDIO_ROOT.data ++ rest)
      refine ⟨rest ++ url.search.data, ?_⟩
      rw [hp]
      have hcat : ((jsSliceFrom url.pathname
          (((audioRootUrl resolve location).pathname.length : Int)
            - (AUDIO_ROOT.length : Int))).append url.search).data
          = (AUDIO_ROOT.data ++ rest) ++ url.search.data := by
        rw [← hslice]
        rfl
      rw [hcat, List.append_assoc]
    · exfalso
      unfold normalizeAudioPath at h
      rw [← hurl] at h
      simp [horig, hpre] at h
  · exfalso
    unfold normalizeAudioPath at h
    rw [← hurl] at h
    simp [horig] at h
/-! Crawl lemmas: the visited set only grows, and fuel beyond the number of
distinct server keys guarantees completion. -/

theorem crawlFold_seen_mono
    (step : String → List String → Option (Except String (List String × List String)))
    (hstep : ∀ p seen found seen2, step p seen = some (.ok (found, seen2)) → seen ⊆ seen2) :
    ∀ (l : List String) (seen : List String) (found seen2 : List String),
      crawlFold step l seen = some (.ok (found, seen2)) → seen ⊆ seen2 := by
  intro l
  induction l with
  | nil =>
    intro seen found seen2 h
    simp only [crawlFold, Option.some.injEq, Except.ok.injEq, Prod.mk.injEq] at h
    rw [← h.2]
    exact List.Subset.refl seen
  | cons next rest ih =>
    intro seen found seen2 h
    simp only [crawlFold] at h
    cases hstepEq : step next seen with
    | none => rw [hstepEq] at h; exact absurd h (by simp)
    | some r =>
      rw [hstepEq] at h
      cases r with
      | error e => exact absurd h (by simp)
      | ok pr =>
        obtain ⟨found1, seen1⟩ := pr
        simp only at h
        cases hfoldEq : crawlFold step rest seen1 with
        | none => rw [hfoldEq] at h; exact absurd h (by simp)
        | some r2 =>
          rw [hfoldEq] at h
          cases r2 with
          | error e => exact absurd h (by simp)
          | ok pr2 =>
            obtain ⟨more, seen3⟩ := pr2
            simp only [Option.some.injEq, Except.ok.injEq, Prod.mk.injEq] at h
            have h1 : seen ⊆ seen1 := hstep next seen found1 seen1 hstepEq
            have h2 : seen1 ⊆ seen3 := ih seen1 more seen3 hfoldEq
            rw [← h.2]
            exact h1.trans h2

theorem crawlStep_seen_mono (env : CrawlEnv) :
    ∀ (fuel : Nat) (p : String) (seen found seen2 : List String),
      crawlStep env fuel p seen = some (.ok (found, seen2)) → seen ⊆ seen2 := by
  intro fuel
  induction fuel with
  | zero =>
    intro p seen found seen2 h
    exact absurd h (by simp [crawlStep])
  | succ n ih =>
    intro p seen found seen2 h
    simp only [crawlStep] at h
    by_cases hmem :
        ((env.resolve p env.location).pathname.append (env.resolve p env.location).search) ∈ seen
    · rw [if_pos hmem] at h
      simp only [Option.some.injEq, Except.ok.injEq, Prod.mk.injEq] at h
      rw [← h.2]
      exact List.Subset.refl seen
    · rw [if_neg hmem] at h
      cases hfetch : lookupFetch env.server
          ((env.resolve p env.location).pathname.append (env.resolve p env.location).search) with
      | error cause => rw [hfetch] at h; exact absurd h (by simp)
      | ok links =>
        rw [hfetch] at h
        simp only at h
        cases hfoldEq : crawlFold (crawlStep env n)
            (classifyLinks env.resolve env.location (env.resolve p env.location) links).1
            (((env.resolve p env.location).pathname.append (env.resolve p env.location).search)
              :: seen) with
        | none => rw [hfoldEq] at h; exact absurd h (by simp)
        | some r =>
          rw [hfoldEq] at h
          cases r with
          | error e => exact absurd h (by simp)
          | ok pr =>
            obtain ⟨more, seen3⟩ := pr
            simp only [Option.some.injEq, Except.ok.injEq, Prod.mk.injEq] at h
            have h2 := crawlFold_seen_mono (crawlStep env n)
              (fun a b c d hh => ih a b c d hh) _ _ _ _ hfoldEq
            rw [← h.2]
            exact (List.subset_cons_self _ seen).trans h2

theorem lookupFetch_ok_mem :
    ∀ (server : List (String × Except String (List String))) (k : String)
      (links : List String),
      lookupFetch server k = .ok links → k ∈ server.map Prod.fst := by
  intro server
  induction server with
  | nil =>
    intro k links h
    exact absurd h (by simp [lookupFetch])
  | cons e rest ih =>
    intro k links h
    simp only [lookupFetch] at h
    by_cases he : e.1 = k
    · simp [he]
    · rw [if_neg he] at h
      simp only [List.map_cons, List.mem_cons]
      exact Or.inr (ih k links h)

theorem crawlFold_isSome (env : CrawlEnv)
    (step : String → List String → Option (Except String (List String × List String)))
    (bound : Nat)
    (hmono : ∀ p seen found seen2, step p seen = some (.ok (found, seen2)) → seen ⊆ seen2)
    (hstep : ∀ p seen, (serverKeys env \ seen.toFinset).card < bound → (step p seen).isSome) :
    ∀ (l seen : List String),
      (serverKeys env \ seen.toFinset).card < bound → (crawlFold step l seen).isSome := by
  intro l
  induction l with
  | nil =>
    intro seen hcard
    simp [crawlFold]
  | cons next rest ih =>
    intro seen hcard
    have hnext := hstep next seen hcard
    simp only [crawlFold]
    cases hstepEq : step next seen with
    | none => rw [hstepEq] at hnext; exact absurd hnext (by simp)
    | some r =>
      cases r with
      | error e => simp
      | ok pr =>
        obtain ⟨found1, seen1⟩ := pr
        have hsub : seen ⊆ seen1 := hmono next seen found1 seen1 hstepEq
        have hsubF : seen.toFinset ⊆ seen1.toFinset := by
          intro a ha
          rw [List.mem_toFinset] at ha ⊢
          exact hsub ha
        have hcard1 : (serverKeys env \ seen1.toFinset).card < bound := by
          refine lt_of_le_of_lt ?_ hcard
          exact Finset.card_le_card (Finset.sdiff_subset_sdiff (Finset.Subset.refl _) hsubF)
        have hfold := ih seen1 hcard1
        cases hfoldEq : crawlFold step rest seen1 with
        | none => rw [hfoldEq] at hfold; exact absurd hfold (by simp)
        | some r2 =>
          cases r2 with
          | error e => simp [hfoldEq]
          | ok pr2 =>
            obtain ⟨more2, seen3⟩ := pr2
            simp [hfoldEq]

theorem crawlStep_isSome (env : CrawlEnv) :
    ∀ (fuel : Nat) (p : String) (seen : List String),
      (serverKeys env \ seen.toFinset).card < fuel → (crawlStep env fuel p seen).isSome := by
  intro fuel
  induction fuel with
  | zero =>
    intro p seen hcard
    exact absurd hcard (by omega)
  | succ n ih =>
    intro p seen hcard
    simp only [crawlStep]
    by_cases hmem :
        ((env.resolve p env.location).pathname.append (env.resolve p env.location).search) ∈ seen
    · rw [if_pos hmem]
      simp
    · rw [if_neg hmem]
      cases hfetch : lookupFetch env.server
          ((env.resolve p env.location).pathname.append (env.resolve p env.location).search) with
      | error cause => simp
      | ok links =>
        have hkey : ((env.resolve p env.location).pathname.append
            (env.resolve p env.location).search) ∈ serverKeys env := by
          rw [serverKeys, List.mem_toFinset]
          exact lookupFetch_ok_mem env.server _ links hfetch
        have hcard1 : (serverKeys env \
            (((env.resolve p env.location).pathname.append
              (env.resolve p env.location).search) :: seen).toFinset).card < n := by
          rw [List.toFinset_cons, Finset.sdiff_insert]
          have hin : ((env.resolve p env.location).pathname.append
              (env.resolve p env.location).search) ∈ serverKeys env \ seen.toFinset := by
            rw [Finset.mem_sdiff, List.mem_toFinset]
            exact ⟨hkey, hmem⟩
          have := Finset.card_erase_lt_of_mem hin
          omega
        have hfold := crawlFold_isSome env (crawlStep env n) n
          (fun a b c d hh => crawlStep_seen_mono env n a b c d hh)
          (fun a b hb => ih a b hb)
          (classifyLinks env.resolve env.location (env.resolve p env.location) links).1
          _ hcard1
        cases hfoldEq : crawlFold (crawlStep env n)
            (classifyLinks env.resolve env.location (env.resolve p env.location) links).1
            (((env.resolve p env.location).pathname.append
              (env.resolve p env.location).search) :: seen) with
        | none => rw [hfoldEq] at hfold; exact absurd hfold (by simp)
        | some r =>
          cases r with
          | error e => simp [hfoldEq]
          | ok pr =>
            obtain ⟨more2, seen3⟩ := pr
            simp [hfoldEq]

/-! Claim theorems for the path normalizer and the crawler. -/

/-- C1: for every href string and base location, `normalizeAudioPath` either
rejects (returns null) or returns a path that is on the application's own
origin and lies under the configured audio root prefix; it never returns a
cross-origin or out-of-root path.  The hypothesis states the one property of
the external URL resolver the proof needs: the pathname of
`new URL("audio/", location.href)` ends with `audio/`, as standard URL
resolution of that relative reference guarantees. -/
theorem normalize_rejects_or_same_origin_under_root
    (resolve : String → Url → Url) (location : Url) (href : String) (base : Url)
    (hroot : jsEndsWith (audioRootUrl resolve location).pathname AUDIO_ROOT = true) :
    normalizeAudioPath resolve location href base = none ∨
      ∃ p, normalizeAudioPath resolve location href base = some p ∧
        (resolve href base).origin = location.origin ∧
        jsStartsWith (resolve href base).pathname
          (audioRootUrl resolve location).pathname = true ∧
        jsStartsWith p AUDIO_ROOT = true := by
  cases hres : normalizeAudioPath resolve location href base with
  | none => exact Or.inl rfl
  | some p =>
    exact Or.inr ⟨p, rfl, normalizeAudioPath_some resolve location href base hroot p hres⟩

/-- Witness for C1 at the demo resolver: the root hypothesis holds and a
same-directory link is accepted with an `audio/`-prefixed result. -/
theorem normalize_rejects_or_same_origin_under_root_witness :
    jsEndsWith (audioRootUrl demoResolve demoLocation).pathname AUDIO_ROOT = true ∧
      (normalizeAudioPath demoResolve demoLocation "b.mp3"
          (audioRootUrl demoResolve demoLocation) = none ∨
        ∃ p, normalizeAudioPath demoResolve demoLocation "b.mp3"
            (audioRootUrl demoResolve demoLocation) = some p ∧
          (demoResolve "b.mp3" (audioRootUrl demoResolve demoLocation)).origin
            = demoLocation.origin ∧
          jsStartsWith (demoResolve "b.mp3" (audioRootUrl demoResolve demoLocation)).pathname
            (audioRootUrl demoResolve demoLocation).pathname = true ∧
          jsStartsWith p AUDIO_ROOT = true) :=
  ⟨by decide,
    normalize_rejects_or_same_origin_under_root demoResolve demoLocation "b.mp3"
      (audioRootUrl demoResolve demoLocation) (by decide)⟩

/-- C2 counterexample: on `dupEnv` the same audio file is linked from the root
listing and from the `sub/` listing, and `crawlDirectory` returns it twice —
not exactly once (the deduplication happens later, in `loadTracks`). -/
theorem crawl_duplicate_file_counterexample :
    crawlDirectory dupEnv 3 = some (.ok ["audio/a.mp3", "audio/a.mp3"]) ∧
      List.count "audio/a.mp3" ["audio/a.mp3", "audio/a.mp3"] = 2 :=
  ⟨rfl, by decide⟩

/-- C2 (amended): for every directory-listing link graph `crawlDirectory`
terminates — any fuel exceeding the number of distinct canonical directory
keys of the server not yet visited suffices, so the recursion is bounded by
the number of distinct canonical directories — and on the cyclic graph of the
spec (A links to B, B links back to A, each audio file linked once) it returns
each audio file exactly once.  In general a file reachable through several
links is returned once per link, see `crawl_duplicate_file_counterexample`. -/
theorem crawl_terminates_and_cycle_exactly_once :
    (∀ (env : CrawlEnv) (fuel : Nat) (relativePath : String) (seen : List String),
        (serverKeys env \ seen.toFinset).card < fuel →
        (crawlStep env fuel relativePath seen).isSome = true) ∧
      crawlDirectory cycEnv 3 = some (.ok ["audio/t1.mp3", "audio/sub/t2.mp3"]) ∧
      List.count "audio/t1.mp3" ["audio/t1.mp3", "audio/sub/t2.mp3"] = 1 ∧
      List.count "audio/sub/t2.mp3" ["audio/t1.mp3", "audio/sub/t2.mp3"] = 1 :=
  ⟨fun env fuel p seen h => crawlStep_isSome env fuel p seen h, rfl, by decide, by decide⟩

/-- Witness for C2: on the cyclic demo server the fuel bound is met and the
crawl completes. -/
theorem crawl_terminates_and_cycle_exactly_once_witness :
    (serverKeys cycEnv \ ([] : List String).toFinset).card < 3 ∧
      (crawlStep cycEnv 3 AUDIO_ROOT []).isSome = true :=
  ⟨by decide, crawl_terminates_and_cycle_exactly_once.1 cycEnv 3 AUDIO_ROOT [] (by decide)⟩

/-- C7 counterexample: a crawl failure while playing clears the playlist and
resets `currentIndex` to `-1`, but does not reset the `stopped` flag — the
state is not "empty/stopped" as claimed, `isStopped` stays `false`. -/
theorem loadTracks_failure_stopped_flag_counterexample :
    loadTracks
        { tracks := [some "audio/a.mp3"], currentIndex := 0, isStopped := false,
          stored := none } (.error "HTTP 404")
      = { tracks := [], currentIndex := -1, isStopped := false, stored := none } ∧
      ¬ (loadTracks
          { tracks := [some "audio/a.mp3"], currentIndex := 0, isStopped := false,
            stored := none } (.error "HTTP 404")).isStopped = true :=
  ⟨rfl, by decide⟩

/-- C7 (amended): a directory whose listing fetch fails makes the crawl step
return a `CrawlError` naming the failing path and the underlying cause; a
child error aborts the enclosing crawl loop unchanged (no partial results);
and on any crawl error `loadTracks` clears the playlist and resets
`currentIndex` to `-1` — while leaving the `stopped` flag untouched (the
source never writes `isStopped` in `loadTracks`). -/
theorem crawl_failure_fatal_and_reset :
    (∀ (env : CrawlEnv) (fuel : Nat) (relativePath : String) (seen : List String)
        (cause : String),
        ((env.resolve relativePath env.location).pathname.append
          (env.resolve relativePath env.location).search) ∉ seen →
        lookupFetch env.server
          ((env.resolve relativePath env.location).pathname.append
            (env.resolve relativePath env.location).search) = .error cause →
        crawlStep env (fuel + 1) relativePath seen
          = some (.error (crawlErrorMessage relativePath cause))) ∧
      (∀ (step : String → List String →
            Option (Except String (List String × List String)))
          (next : String) (rest seen : List String) (e : String),
          step next seen = some (.error e) →
          crawlFold step (next :: rest) seen = some (.error e)) ∧
      (∀ (p cause : String), crawlErrorMessage p cause
        = "Cannot read \"" ++ p
            ++ ("\". Run with a static server that allows listing the audio directory. ("
              ++ cause ++ ")")) ∧
      (∀ (st : PlayerState) (e : String),
          loadTracks st (.error e) = { st with tracks := [], currentIndex := -1 }) := by
  refine ⟨?_, ?_, ?_, ?_⟩
  · intro env fuel p seen cause hmem hfetch
    simp only [crawlStep]
    rw [if_neg hmem, hfetch]
  · intro step next rest seen e h
    simp only [crawlFold]
    rw [h]
  · intro p cause
    simp [crawlErrorMessage, String.append_assoc]
  · intro st e
    rfl

/-- Witness for C7 on a concrete failing server and a concrete playing state. -/
theorem crawl_failure_fatal_and_reset_witness :
    ((demoResolve AUDIO_ROOT demoLocation).pathname.append
        (demoResolve AUDIO_ROOT demoLocation).search) ∉ ([] : List String) ∧
      lookupFetch [("/audio/", (.error "HTTP 404" : Except String (List String)))]
        ((demoResolve AUDIO_ROOT demoLocation).pathname.append
          (demoResolve AUDIO_ROOT demoLocation).search) = .error "HTTP 404" ∧
      crawlStep
          { resolve := demoResolve, location := demoLocation,
            server := [("/audio/", .error "HTTP 404")] } 1 AUDIO_ROOT []
        = some (.error (crawlErrorMessage AUDIO_ROOT "HTTP 404")) :=
  ⟨by decide, rfl,
    crawl_failure_fatal_and_reset.1
      { resolve := demoResolve, location := demoLocation,
        server := [("/audio/", .error "HTTP 404")] } 0 AUDIO_ROOT [] "HTTP 404"
      (by decide) rfl⟩

/-! Claim theorems for the order store and the playback controller. -/

/-- C4 counterexample: a malformed stored value makes `applySavedOrder` throw
(`JSON.parse` at source line 93 is not wrapped in any exception handler), so
the error is raised to the caller instead of being treated as an empty
order. -/
theorem applySavedOrder_malformed_counterexample :
    applySavedOrder (some "oops") ["a.mp3"]
        = .error "SyntaxError: JSON.parse: unexpected character" ∧
      (applySavedOrder (some "oops") ["a.mp3"]).isOk = false :=
  ⟨rfl, rfl⟩

/-- C4 (amended): an absent stored value is treated as the empty order and the
caller proceeds normally, but a malformed stored value raises the `JSON.parse`
exception to the caller: `applySavedOrder` errors, and `loadTracks` — whose
`try`/`catch` receives that error — discards the crawl result, clears the
playlist and resets `currentIndex`, instead of proceeding with an empty
order. -/
theorem applySavedOrder_absent_empty_malformed_raises :
    (∀ paths : List String,
        applySavedOrder none paths = .ok (sortWithSavedOrder [] paths)) ∧
      (∀ (s : String) (paths : List String), jsonParseStringArray s = none →
        applySavedOrder (some s) paths
          = .error "SyntaxError: JSON.parse: unexpected character") ∧
      (∀ (st : PlayerState) (allFound : List String),
        jsonParseStringArray (st.stored.getD "[]") = none →
        loadTracks st (.ok allFound) = { st with tracks := [], currentIndex := -1 }) := by
  refine ⟨fun paths => rfl, ?_, ?_⟩
  · intro s paths h
    simp [applySavedOrder, h]
  · intro st allFound h
    simp only [loadTracks, loadTracksCompute, applySavedOrder, h]

/-- Witness for C4 on the malformed stored value `"oops"`. -/
theorem applySavedOrder_absent_empty_malformed_raises_witness :
    jsonParseStringArray "oops" = none ∧
      applySavedOrder (some "oops") ["a.mp3"]
        = .error "SyntaxError: JSON.parse: unexpected character" :=
  ⟨rfl, applySavedOrder_absent_empty_malformed_raises.2.1 "oops" ["a.mp3"] rfl⟩

/-- C5 counterexample: the guard on source line 169 checks equal, `NaN` and
negative indices but not indices at or beyond the playlist length.  Moving
index 0 to index 5 on a 2-element playlist is not a no-op: the element is
relocated to the (clamped) end, `currentIndex` becomes 5, and a persistence
save is triggered. -/
theorem reorderTracks_out_of_bounds_counterexample :
    reorderTracks
        { tracks := [some "audio/a.mp3", some "audio/b.mp3"], currentIndex := 0,
          isStopped := true, stored := none } (some 0) (some 5)
      = ({ tracks := [some "audio/b.mp3", some "audio/a.mp3"], currentIndex := 5,
           isStopped := true, stored := some "[\"audio/b.mp3\",\"audio/a.mp3\"]" }, true) ∧
      (reorderTracks
          { tracks := [some "audio/a.mp3", some "audio/b.mp3"], currentIndex := 0,
            isStopped := true, stored := none } (some 0) (some 5)).1.tracks
        ≠ [some "audio/a.mp3", some "audio/b.mp3"] ∧
      (reorderTracks
          { tracks := [some "audio/a.mp3", some "audio/b.mp3"], currentIndex := 0,
            isStopped := true, stored := none } (some 0) (some 5)).2 = true := by
  refine ⟨by decide, by decide, by decide⟩

/-- C5 (amended): `move` is a silent no-op — playlist, `currentIndex` and
stored order unchanged, no persistence save — when the indices are equal,
not-a-number, or negative.  Out-of-bounds indices (`≥` playlist length) are
not guarded: a too-large source index splices an `undefined` entry in, and a
too-large target index is clamped to the end and does perform a move and a
save (see `reorderTracks_out_of_bounds_counterexample`). -/
theorem reorderTracks_noop_on_equal_nan_negative :
    ∀ (st : PlayerState) (fromIdx toIdx : Option Int),
      (fromIdx = none ∨ toIdx = none ∨
        (∃ a, fromIdx = some a ∧ toIdx = some a) ∨
        (∃ a, fromIdx = some a ∧ a < 0) ∨
        (∃ b, toIdx = some b ∧ b < 0)) →
      reorderTracks st fromIdx toIdx = (st, false) := by
  intro st fromIdx toIdx h
  match fromIdx, toIdx with
  | none, none => rfl
  | none, some b => rfl
  | some a, none => rfl
  | some a, some b =>
    simp only [reorderTracks]
    have hguard : a = b ∨ a < 0 ∨ b < 0 := by
      rcases h with h | h | ⟨x, hx, hy⟩ | ⟨x, hx, hy⟩ | ⟨x, hx, hy⟩
      · exact absurd h (by simp)
      · exact absurd h (by simp)
      · injection hx with hx
        injection hy with hy
        exact Or.inl (by rw [hx, hy])
      · injection hx with hx
        exact Or.inr (Or.inl (by rw [hx]; exact hy))
      · injection hx with hx
        exact Or.inr (Or.inr (by rw [hx]; exact hy))
    rw [if_pos hguard]

/-- Witness for C5 at `move(1,1)` (equal indices) on a 3-track playlist. -/
theorem reorderTracks_noop_on_equal_nan_negative_witness :
    ((some 1 : Option Int) = none ∨ (some 1 : Option Int) = none ∨
        (∃ a, (some 1 : Option Int) = some a ∧ (some 1 : Option Int) = some a) ∨
        (∃ a, (some 1 : Option Int) = some a ∧ a < 0) ∨
        (∃ b, (some 1 : Option Int) = some b ∧ b < 0)) ∧
      reorderTracks
          { tracks := [some "audio/a.mp3", some "audio/b.mp3", some "audio/c.mp3"],
            currentIndex := 1, isStopped := false, stored := none } (some 1) (some 1)
        = ({ tracks := [some "audio/a.mp3", some "audio/b.mp3", some "audio/c.mp3"],
             currentIndex := 1, isStopped := false, stored := none }, false) :=
  ⟨Or.inr (Or.inr (Or.inl ⟨1, rfl, rfl⟩)),
    reorderTracks_noop_on_equal_nan_negative _ (some 1) (some 1)
      (Or.inr (Or.inr (Or.inl ⟨1, rfl, rfl⟩)))⟩

/-- C10: if the track-ended notification fires while the playlist is empty,
`goToNextTrack` is a no-op — the empty-list guard returns before the modulo
computation, `currentIndex` is unchanged and no track load or autoplay is
attempted. -/
theorem trackEnded_noop_on_empty :
    ∀ st : PlayerState, st.tracks = [] → goToNextTrack st = (st, false) := by
  intro st h
  simp [goToNextTrack, h]

/-- Witness for C10: the empty state after a failed refresh. -/
theorem trackEnded_noop_on_empty_witness :
    (initialState none).tracks = [] ∧
      goToNextTrack (initialState none) = (initialState none, false) :=
  ⟨rfl, trackEnded_noop_on_empty (initialState none) rfl⟩

/-- C9: on a non-empty playlist the track-ended notification advances
`currentIndex` to `(currentIndex + 1) mod length` — wrapping from the last
index to 0 — leaves the playlist and the stopped flag unchanged, and autoplays
the next track exactly when the stopped flag is false.  The hypothesis
`-1 ≤ currentIndex` covers every reachable index (see the C8 development);
it makes the JS truncating `%` agree with the mathematical `mod`. -/
theorem trackEnded_advances_mod_length :
    ∀ st : PlayerState, st.tracks ≠ [] → -1 ≤ st.currentIndex →
      (goToNextTrack st).1.tracks = st.tracks ∧
        (goToNextTrack st).1.currentIndex
          = (st.currentIndex + 1) % (st.tracks.length : Int) ∧
        (goToNextTrack st).1.isStopped = st.isStopped ∧
        (goToNextTrack st).2 = !st.isStopped := by
  intro st hne hci
  have hlen : st.tracks.length ≠ 0 := fun h => hne (List.length_eq_zero.1 h)
  have hpos : (0 : Int) < (st.tracks.length : Int) := by
    have : 0 < st.tracks.length := Nat.pos_of_ne_zero hlen
    exact_mod_cast this
  have htmod : Int.tmod (st.currentIndex + 1) (st.tracks.length : Int)
      = (st.currentIndex + 1) % (st.tracks.length : Int) :=
    Int.tmod_eq_emod (by omega) (le_of_lt hpos)
  have h0 : 0 ≤ (st.currentIndex + 1) % (st.tracks.length : Int) :=
    Int.emod_nonneg _ (ne_of_gt hpos)
  have h1 : (st.currentIndex + 1) % (st.tracks.length : Int) < (st.tracks.length : Int) :=
    Int.emod_lt_of_pos _ hpos
  simp only [goToNextTrack, hlen, if_false, htmod, loadTrack]
  have hguard : ¬ (False ∨
      (st.currentIndex + 1) % (st.tracks.length : Int) < 0 ∨
      (st.currentIndex + 1) % (st.tracks.length : Int) ≥ (st.tracks.length : Int)) := by
    rintro (h | h | h)
    · exact h
    · exact absurd h (not_lt.2 h0)
    · exact absurd h (not_le.2 h1)
  rw [if_neg hguard]
  exact ⟨rfl, rfl, rfl, rfl⟩

/-- Witness for C9: track-ended on the last index of a 3-item playlist wraps
to index 0 and keeps playing. -/
theorem trackEnded_advances_mod_length_witness :
    ({ tracks := [some "audio/a.mp3", some "audio/b.mp3", some "audio/c.mp3"],
        currentIndex := 2, isStopped := false, stored := none } : PlayerState).tracks ≠ [] ∧
      (-1 : Int) ≤ 2 ∧
      (goToNextTrack
          { tracks := [some "audio/a.mp3", some "audio/b.mp3", some "audio/c.mp3"],
            currentIndex := 2, isStopped := false, stored := none }).1.currentIndex
        = ((2 : Int) + 1) % ((3 : Nat) : Int) ∧
      (goToNextTrack
          { tracks := [some "audio/a.mp3", some "audio/b.mp3", some "audio/c.mp3"],
            currentIndex := 2, isStopped := false, stored := none }).2 = true :=
  ⟨by decide, by decide,
    (trackEnded_advances_mod_length _ (by decide) (by decide)).2.1,
    by
      have := (trackEnded_advances_mod_length
        { tracks := [some "audio/a.mp3", some "audio/b.mp3", some "audio/c.mp3"],
          currentIndex := 2, isStopped := false, stored := none } (by decide) (by decide)).2.2.2
      simpa using this⟩

/-! List lemmas for the splice-based move. -/

theorem eraseIdx_append_cons {α : Type} (a c : List α) (x : α) :
    (a ++ x :: c).eraseIdx a.length = a ++ c := by
  induction a with
  | nil => simp
  | cons h a ih => simpa using ih

theorem splice_move_spec {α : Type} (l : List α) (n m : Nat) (x : α)
    (hn : n < l.length) (hm : m < l.length) :
    (l.take n ++ l.drop (n + 1)) = l.eraseIdx n ∧
      (l.take n ++ l.drop (n + 1)).length = l.length - 1 ∧
      ((l.take n ++ l.drop (n + 1)).take m
        ++ x :: (l.take n ++ l.drop (n + 1)).drop m).length = l.length ∧
      ((l.take n ++ l.drop (n + 1)).take m
        ++ x :: (l.take n ++ l.drop (n + 1)).drop m)[m]? = some x ∧
      ((l.take n ++ l.drop (n + 1)).take m
        ++ x :: (l.take n ++ l.drop (n + 1)).drop m).eraseIdx m
        = (l.take n ++ l.drop (n + 1)) ∧
      (∀ j, (l.take n ++ l.drop (n + 1))[j]? = if j < n then l[j]? else l[j + 1]?) ∧
      (∀ i, i < m →
        ((l.take n ++ l.drop (n + 1)).take m
          ++ x :: (l.take n ++ l.drop (n + 1)).drop m)[i]?
          = (l.take n ++ l.drop (n + 1))[i]?) ∧
      (∀ i, m < i →
        ((l.take n ++ l.drop (n + 1)).take m
          ++ x :: (l.take n ++ l.drop (n + 1)).drop m)[i]?
          = (l.take n ++ l.drop (n + 1))[i - 1]?) := by
  have hrestlen : (l.take n ++ l.drop (n + 1)).length = l.length - 1 := by
    simp only [List.length_append, List.length_take, List.length_drop]
    omega
  have htakelen : ((l.take n ++ l.drop (n + 1)).take m).length = m := by
    simp only [List.length_take, hrestlen]
    omega
  have htaken : (l.take n).length = n := by
    simp only [List.length_take]
    omega
  refine ⟨(List.eraseIdx_eq_take_drop_succ l n).symm, hrestlen, ?_, ?_, ?_, ?_, ?_, ?_⟩
  · simp only [List.length_append, List.length_cons, htakelen, List.length_drop, hrestlen]
    omega
  · rw [List.getElem?_append_right (le_of_eq htakelen)]
    simp [htakelen]
  · have := eraseIdx_append_cons ((l.take n ++ l.drop (n + 1)).take m)
      ((l.take n ++ l.drop (n + 1)).drop m) x
    rw [htakelen] at this
    rw [this, List.take_append_drop]
  · intro j
    by_cases hj : j < n
    · rw [if_pos hj, List.getElem?_append_left (by rw [htaken]; exact hj),
        List.getElem?_take_of_lt hj]
    · rw [if_neg hj, List.getElem?_append_right (by rw [htaken]; omega),
        List.getElem?_drop, htaken]
      congr 1
      omega
  · intro i hi
    rw [List.getElem?_append_left (by rw [htakelen]; exact hi),
      List.getElem?_take_of_lt hi]
  · intro i hi
    rw [List.getElem?_append_right (by rw [htakelen]; omega), htakelen]
    have : i - m = (i - m - 1) + 1 := by omega
    rw [this]
    simp only [List.getElem?_cons_succ, List.getElem?_drop]
    congr 1
    omega

/-- C6: for valid distinct in-bounds indices, `move` relocates the element at
`fromIdx` to position `toIdx` (the playlist keeps its length, the moved element
sits at `toIdx`, and erasing it there yields the original list without the
element at `fromIdx` — all other elements keep their relative order), and
`currentIndex` is adjusted exactly as the claim states, so that it still
points at the same logical track. -/
theorem reorderTracks_valid_move_spec (st : PlayerState) (f t : Int)
    (hf0 : 0 ≤ f) (hflen : f < (st.tracks.length : Int))
    (ht0 : 0 ≤ t) (htlen : t < (st.tracks.length : Int)) (hne : f ≠ t) :
    (reorderTracks st (some f) (some t)).1.tracks.length = st.tracks.length ∧
      (reorderTracks st (some f) (some t)).1.tracks[t.toNat]?
        = st.tracks[f.toNat]? ∧
      (reorderTracks st (some f) (some t)).1.tracks.eraseIdx t.toNat
        = st.tracks.eraseIdx f.toNat ∧
      (reorderTracks st (some f) (some t)).1.currentIndex
        = (if st.currentIndex = f then t
           else if f < st.currentIndex ∧ st.currentIndex ≤ t then st.currentIndex - 1
           else if t ≤ st.currentIndex ∧ st.currentIndex < f then st.currentIndex + 1
           else st.currentIndex) ∧
      (0 ≤ st.currentIndex → st.currentIndex < (st.tracks.length : Int) →
        (reorderTracks st (some f) (some t)).1.tracks[
            (reorderTracks st (some f) (some t)).1.currentIndex.toNat]?
          = st.tracks[st.currentIndex.toNat]?) := by
  have hn : f.toNat < st.tracks.length := by omega
  have hm : t.toNat < st.tracks.length := by omega
  have hx : st.tracks[f.toNat]? = some (st.tracks.get ⟨f.toNat, hn⟩) := by
    simp [List.getElem?_eq_getElem hn]
  obtain ⟨hs1, hs2, hs3, hs4, hs5, hs6, hs7, hs8⟩ :=
    splice_move_spec st.tracks f.toNat t.toNat (st.tracks.get ⟨f.toNat, hn⟩) hn hm
  have hguard : ¬ (f = t ∨ f < 0 ∨ t < 0) := by
    rintro (h | h | h)
    · exact hne h
    · omega
    · omega
  have htracks : (reorderTracks st (some f) (some t)).1.tracks
      = (st.tracks.take f.toNat ++ st.tracks.drop (f.toNat + 1)).take t.toNat
        ++ st.tracks.get ⟨f.toNat, hn⟩
          :: (st.tracks.take f.toNat ++ st.tracks.drop (f.toNat + 1)).drop t.toNat := by
    simp only [reorderTracks, spliceRemoveOne, spliceInsertOne, hx, Option.join]
    rw [if_neg hguard]
    split <;> simp [saveOrder]
  have hci : (reorderTracks st (some f) (some t)).1.currentIndex
      = (if st.currentIndex = f then t
         else if f < st.currentIndex ∧ t ≥ st.currentIndex then st.currentIndex - 1
         else if f > st.currentIndex ∧ t ≤ st.currentIndex then st.currentIndex + 1
         else st.currentIndex) := by
    simp only [reorderTracks, spliceRemoveOne, spliceInsertOne, hx, Option.join]
    rw [if_neg hguard]
    split <;> simp [saveOrder]
  refine ⟨?_, ?_, ?_, ?_, ?_⟩
  · rw [htracks]
    exact hs3
  · rw [htracks, hs4]
    exact hx.symm
  · rw [htracks, hs5, hs1]
  · rw [hci]
    split_ifs <;> omega
  · intro hci0 hcilen
    rw [htracks, hci]
    by_cases h1 : st.currentIndex = f
    · rw [if_pos h1, hs4]
      have hnn : st.currentIndex.toNat = f.toNat := by omega
      rw [hnn, hx]
    · rw [if_neg h1]
      by_cases h2 : f < st.currentIndex ∧ t ≥ st.currentIndex
      · rw [if_pos h2, hs7 (st.currentIndex - 1).toNat (by omega),
          hs6 (st.currentIndex - 1).toNat, if_neg (by omega)]
        congr 1
        omega
      · rw [if_neg h2]
        by_cases h3 : f > st.currentIndex ∧ t ≤ st.currentIndex
        · rw [if_pos h3, hs8 (st.currentIndex + 1).toNat (by omega),
            hs6 ((st.currentIndex + 1).toNat - 1), if_pos (by omega)]
          congr 1
          omega
        · rw [if_neg h3]
          by_cases h4 : st.currentIndex < f
          · rw [hs7 st.currentIndex.toNat (by omega),
              hs6 st.currentIndex.toNat, if_pos (by omega)]
          · rw [hs8 st.currentIndex.toNat (by omega),
              hs6 (st.currentIndex.toNat - 1), if_neg (by omega)]
            congr 1
            omega

/-- Witness for C6: on `[A,B,C]` with `currentIndex = 2`, `move(0,2)` yields
`[B,C,A]` with `currentIndex = 1`. -/
theorem reorderTracks_valid_move_spec_witness :
    ((0 : Int) ≤ 0 ∧ (0 : Int) < 3 ∧ (0 : Int) ≤ 2 ∧ (2 : Int) < 3 ∧ (0 : Int) ≠ 2) ∧
      (reorderTracks
          { tracks := [some "audio/A.mp3", some "audio/B.mp3", some "audio/C.mp3"],
            currentIndex := 2, isStopped := false, stored := none }
          (some 0) (some 2)).1.currentIndex
        = (if (2 : Int) = 0 then 2
           else if (0 : Int) < 2 ∧ (2 : Int) ≤ 2 then 2 - 1
           else if (2 : Int) ≤ 2 ∧ (2 : Int) < 0 then 2 + 1
           else 2) ∧
      (reorderTracks
          { tracks := [some "audio/A.mp3", some "audio/B.mp3", some "audio/C.mp3"],
            currentIndex := 2, isStopped := false, stored := none }
          (some 0) (some 2)).1.tracks
        = [some "audio/B.mp3", some "audio/C.mp3", some "audio/A.mp3"] :=
  ⟨⟨by decide, by decide, by decide, by decide, by decide⟩,
    by
      have h := (reorderTracks_valid_move_spec
        { tracks := [some "audio/A.mp3", some "audio/B.mp3", some "audio/C.mp3"],
          currentIndex := 2, isStopped := false, stored := none }
        0 2 (by decide) (by decide) (by decide) (by decide) (by decide)).2.2.2.1
      simpa using h,
    by decide⟩

/-! Rank-map lemmas for the order store. -/

theorem mapGet_rankPairsFrom_not_mem :
    ∀ (l : List String) (i : Nat) (k : String), k ∉ l →
      mapGet (rankPairsFrom l i) k = none := by
  intro l
  induction l with
  | nil => intro i k _; rfl
  | cons p rest ih =>
    intro i k h
    have hkp : p ≠ k := fun he => h (by rw [he]; exact List.mem_cons_self _ _)
    have hkr : k ∉ rest := fun hm => h (List.mem_cons_of_mem _ hm)
    simp [rankPairsFrom, mapGet, ih (i + 1) k hkr, hkp]

theorem mapGet_rankPairsFrom_get :
    ∀ (l : List String) (i : Nat), l.Nodup → ∀ (j : Nat) (h : j < l.length),
      mapGet (rankPairsFrom l i) (l.get ⟨j, h⟩) = some (i + j) := by
  intro l
  induction l with
  | nil =>
    intro i _ j h
    exact absurd h (by simp)
  | cons p rest ih =>
    intro i hnd j h
    have hp : p ∉ rest := (List.nodup_cons.1 hnd).1
    have hr : rest.Nodup := (List.nodup_cons.1 hnd).2
    cases j with
    | zero =>
      simp [rankPairsFrom, mapGet, List.get,
        mapGet_rankPairsFrom_not_mem rest (i + 1) p hp]
    | succ j2 =>
      have h2 : j2 < rest.length := by simpa using h
      have hin := ih (i + 1) hr j2 h2
      simp only [List.get, rankPairsFrom, mapGet, hin]
      congr 1
      omega

theorem rankOf_not_mem (saved : List String) (p : String) (h : p ∉ saved) :
    rankOf saved p = maxSafeInteger := by
  simp [rankOf, buildRankPairs, mapGet_rankPairsFrom_not_mem saved 0 p h]

theorem rankOf_get (saved : List String) (hnd : saved.Nodup) (j : Nat)
    (h : j < saved.length) : rankOf saved (saved.get ⟨j, h⟩) = j := by
  unfold rankOf buildRankPairs
  rw [mapGet_rankPairsFrom_get saved 0 hnd j h]
  simp

theorem rankOf_lt_of_mem (saved : List String) (hnd : saved.Nodup) (p : String)
    (h : p ∈ saved) : rankOf saved p < saved.length := by
  obtain ⟨⟨j, hj⟩, hget⟩ := List.mem_iff_get.1 h
  rw [← hget, rankOf_get saved hnd j hj]
  exact hj

theorem localeCompare_nonpos (a b : String) : localeCompare a b ≤ 0 ↔ a ≤ b := by
  unfold localeCompare
  by_cases h1 : a < b
  · rw [if_pos h1]
    constructor
    · intro _
      exact le_of_lt h1
    · intro _
      omega
  · rw [if_neg h1]
    by_cases h2 : b < a
    · rw [if_pos h2]
      constructor
      · intro hc
        exact absurd hc (by omega)
      · intro hle
        exact absurd h2 (not_lt.2 hle)
    · rw [if_neg h2]
      constructor
      · intro _
        exact le_of_not_lt h2
      · intro _
        omega

theorem orderComparator_nonpos (saved : List String) (a b : String) :
    orderComparator saved a b ≤ 0 ↔
      (rankOf saved a < rankOf saved b ∨
        (rankOf saved a = rankOf saved b ∧ a ≤ b)) := by
  unfold orderComparator
  by_cases h : rankOf saved a ≠ rankOf saved b
  · simp only [if_pos h]
    constructor
    · intro hle
      left
      omega
    · rintro (hlt | ⟨heq, _⟩)
      · omega
      · exact absurd heq h
  · simp only [if_neg h]
    rw [localeCompare_nonpos]
    push_neg at h
    constructor
    · intro hle
      exact Or.inr ⟨h, hle⟩
    · rintro (hlt | ⟨_, hle⟩)
      · omega
      · exact hle

/-- The sort with the saved-order comparator equals the spec's merge:
persisted paths first in persisted order, then the new paths sorted
lexicographically. -/
theorem sortWithSavedOrder_eq_specMergeOrder (saved paths : List String)
    (hsn : saved.Nodup) (hpn : paths.Nodup)
    (hlen : saved.length ≤ maxSafeInteger) :
    sortWithSavedOrder saved paths = specMergeOrder paths saved := by
  classical
  haveI htrans : IsTrans String (fun a b => orderComparator saved a b ≤ 0) := by
    constructor
    intro a b c hab hbc
    rw [orderComparator_nonpos] at hab hbc ⊢
    rcases hab with h1 | ⟨h1, h1le⟩ <;> rcases hbc with h2 | ⟨h2, h2le⟩
    · exact Or.inl (h1.trans h2)
    · exact Or.inl (by omega)
    · exact Or.inl (by omega)
    · exact Or.inr ⟨h1.trans h2, h1le.trans h2le⟩
  haveI htotal : IsTotal String (fun a b => orderComparator saved a b ≤ 0) := by
    constructor
    intro a b
    rw [orderComparator_nonpos, orderComparator_nonpos]
    rcases Nat.lt_trichotomy (rankOf saved a) (rankOf saved b) with h | h | h
    · exact Or.inl (Or.inl h)
    · rcases le_total a b with hle | hle
      · exact Or.inl (Or.inr ⟨h, hle⟩)
      · exact Or.inr (Or.inr ⟨h.symm, hle⟩)
    · exact Or.inr (Or.inl h)
  haveI hanti : IsAntisymm String (fun a b => orderComparator saved a b ≤ 0) := by
    constructor
    intro a b hab hba
    rw [orderComparator_nonpos] at hab hba
    rcases hab with h1 | ⟨h1, h1le⟩ <;> rcases hba with h2 | ⟨h2, h2le⟩
    · omega
    · omega
    · omega
    · exact le_antisymm h1le h2le
  have hperm1 : List.Perm (saved.filter (fun p => decide (p ∈ paths)))
      (paths.filter (fun p => decide (p ∈ saved))) := by
    refine (List.perm_ext_iff_of_nodup (hsn.filter _) (hpn.filter _)).2 ?_
    intro a
    simp only [List.mem_filter, decide_eq_true_eq]
    constructor
    · rintro ⟨h1, h2⟩
      exact ⟨h2, h1⟩
    · rintro ⟨h1, h2⟩
      exact ⟨h2, h1⟩
  have hpermRHS : List.Perm (specMergeOrder paths saved) paths := by
    unfold specMergeOrder
    exact (hperm1.append (List.perm_insertionSort _ _)).trans
      (List.filter_append_perm (fun p => decide (p ∈ saved)) paths)
  have hpermLHS : List.Perm (sortWithSavedOrder saved paths) paths :=
    List.perm_insertionSort _ _
  have hrank : List.Pairwise (fun a b => rankOf saved a < rankOf saved b) saved := by
    rw [List.pairwise_iff_getElem]
    intro i j hi hj hij
    have hgi : saved[i] = saved.get ⟨i, hi⟩ := rfl
    have hgj : saved[j] = saved.get ⟨j, hj⟩ := rfl
    rw [hgi, hgj, rankOf_get saved hsn i hi, rankOf_get saved hsn j hj]
    exact hij
  have hsort1 : List.Pairwise (fun a b => orderComparator saved a b ≤ 0)
      (saved.filter (fun p => decide (p ∈ paths))) := by
    refine (hrank.filter _).imp ?_
    intro a b hab
    exact (orderComparator_nonpos saved a b).2 (Or.inl hab)
  have hmem2 : ∀ a, a ∈ List.insertionSort (fun a b : String => a ≤ b)
      (paths.filter (fun p => !decide (p ∈ saved))) → a ∉ saved := by
    intro a ha
    have := (List.perm_insertionSort (fun a b : String => a ≤ b)
      (paths.filter (fun p => !decide (p ∈ saved)))).mem_iff.1 ha
    have := List.mem_filter.1 this
    simpa using this.2
  have hsort2 : List.Pairwise (fun a b => orderComparator saved a b ≤ 0)
      (List.insertionSort (fun a b : String => a ≤ b)
        (paths.filter (fun p => !decide (p ∈ saved)))) := by
    have hs := List.sorted_insertionSort (fun a b : String => a ≤ b)
      (paths.filter (fun p => !decide (p ∈ saved)))
    refine hs.imp_of_mem ?_
    intro a b ha hb hab
    refine (orderComparator_nonpos saved a b).2 (Or.inr ⟨?_, hab⟩)
    rw [rankOf_not_mem saved a (hmem2 a ha), rankOf_not_mem saved b (hmem2 b hb)]
  have hcross : ∀ a ∈ saved.filter (fun p => decide (p ∈ paths)),
      ∀ b ∈ List.insertionSort (fun a b : String => a ≤ b)
        (paths.filter (fun p => !decide (p ∈ saved))),
      orderComparator saved a b ≤ 0 := by
    intro a ha b hb
    have haS : a ∈ saved := (List.mem_filter.1 ha).1
    have hbS : b ∉ saved := hmem2 b hb
    refine (orderComparator_nonpos saved a b).2 (Or.inl ?_)
    rw [rankOf_not_mem saved b hbS]
    exact lt_of_lt_of_le (rankOf_lt_of_mem saved hsn a haS) hlen
  have hsortRHS : List.Pairwise (fun a b => orderComparator saved a b ≤ 0)
      (specMergeOrder paths saved) := by
    unfold specMergeOrder
    exact List.pairwise_append.2 ⟨hsort1, hsort2, hcross⟩
  have hsortLHS : List.Pairwise (fun a b => orderComparator saved a b ≤ 0)
      (sortWithSavedOrder saved paths) :=
    List.sorted_insertionSort _ paths
  exact List.eq_of_perm_of_sorted (hpermLHS.trans hpermRHS.symm) hsortLHS hsortRHS

/-- C3: the merge emits first the persisted paths that are also discovered, in
their persisted relative order (stale persisted entries dropped), followed by
the remaining discovered paths sorted lexicographically; in particular on the
two examples of the claim.  The persisted order is duplicate-free (it is
written from the duplicate-free playlist) as is the discovered set, and the
persisted list is within `Number.MAX_SAFE_INTEGER` in length, so every rank
the comparator uses is exact. -/
theorem applySavedOrder_merge_spec :
    (∀ (saved paths : List String), saved.Nodup → paths.Nodup →
        saved.length ≤ maxSafeInteger →
        sortWithSavedOrder saved paths = specMergeOrder paths saved) ∧
      sortWithSavedOrder ["a.mp3"] ["b.mp3", "a.mp3"] = ["a.mp3", "b.mp3"] ∧
      sortWithSavedOrder ["z.mp3", "a.mp3"] ["a.mp3"] = ["a.mp3"] :=
  ⟨fun saved paths hsn hpn hlen =>
      sortWithSavedOrder_eq_specMergeOrder saved paths hsn hpn hlen,
    by decide, by decide⟩

/-- Witness for C3 at the first example of the claim. -/
theorem applySavedOrder_merge_spec_witness :
    ((["a.mp3"] : List String).Nodup ∧ (["b.mp3", "a.mp3"] : List String).Nodup ∧
        (["a.mp3"] : List String).length ≤ maxSafeInteger) ∧
      sortWithSavedOrder ["a.mp3"] ["b.mp3", "a.mp3"]
        = specMergeOrder ["b.mp3", "a.mp3"] ["a.mp3"] :=
  ⟨⟨by decide, by decide, by decide⟩,
    applySavedOrder_merge_spec.1 ["a.mp3"] ["b.mp3", "a.mp3"]
      (by decide) (by decide) (by decide)⟩

/-! Invariant preservation for each public operation. -/

theorem stateInv_initial (stored : Option String) : StateInv (initialState stored) :=
  ⟨Int.le_refl (-1), Or.inl rfl⟩

theorem loadTracks_preserves_inv (st : PlayerState) (res : Except String (List String))
    (hinv : StateInv st) : StateInv (loadTracks st res) := by
  obtain ⟨h1, h2⟩ := hinv
  unfold loadTracks
  cases loadTracksCompute st.stored res with
  | error e => exact ⟨Int.le_refl (-1), Or.inl rfl⟩
  | ok orderedPaths =>
    dsimp only
    split_ifs with hlen hci
    · exact ⟨h1, Or.inr (Or.inl hlen)⟩
    · exact ⟨Int.le_refl (-1), Or.inl rfl⟩
    · refine ⟨h1, Or.inr (Or.inr ?_)⟩
      show st.currentIndex < ((orderedPaths.map some).length : Int)
      omega

theorem stopPlayback_preserves_inv (st : PlayerState) (hinv : StateInv st) :
    StateInv (stopPlayback st) := hinv

theorem playFromCurrentOrTop_preserves_inv (st : PlayerState) (hinv : StateInv st) :
    StateInv (playFromCurrentOrTop st).1 := by
  obtain ⟨h1, h2⟩ := hinv
  unfold playFromCurrentOrTop
  by_cases hlen : st.tracks.length = 0
  · rw [if_pos hlen]
    exact ⟨h1, h2⟩
  · rw [if_neg hlen]
    dsimp only
    by_cases hbad : st.currentIndex < 0 ∨ st.currentIndex ≥ (st.tracks.length : Int)
    · rw [if_pos hbad]
      unfold loadTrack StateInv
      dsimp only
      split_ifs <;> dsimp only <;> omega
    · rw [if_neg hbad]
      unfold loadTrack StateInv
      dsimp only
      split_ifs <;> dsimp only <;> omega

theorem selectTrack_preserves_inv (st : PlayerState) (i : Nat)
    (h : i < st.tracks.length) : StateInv (selectTrack st (i : Int)).1 := by
  unfold selectTrack loadTrack StateInv
  dsimp only
  split_ifs <;> dsimp only <;> omega

theorem goToNextTrack_preserves_inv (st : PlayerState) (hinv : StateInv st) :
    StateInv (goToNextTrack st).1 := by
  obtain ⟨h1, h2⟩ := hinv
  by_cases hlen : st.tracks.length = 0
  · unfold goToNextTrack
    rw [if_pos hlen]
    exact ⟨h1, h2⟩
  · have hpos : (0 : Int) < (st.tracks.length : Int) := by omega
    have htmod : Int.tmod (st.currentIndex + 1) (st.tracks.length : Int)
        = (st.currentIndex + 1) % (st.tracks.length : Int) :=
      Int.tmod_eq_emod (by omega) (le_of_lt hpos)
    have h0 : 0 ≤ (st.currentIndex + 1) % (st.tracks.length : Int) :=
      Int.emod_nonneg _ (ne_of_gt hpos)
    have hlt : (st.currentIndex + 1) % (st.tracks.length : Int)
        < (st.tracks.length : Int) := Int.emod_lt_of_pos _ hpos
    unfold goToNextTrack loadTrack StateInv
    rw [if_neg hlen]
    dsimp only
    rw [htmod]
    split_ifs <;> dsimp only <;> omega

theorem reorderTracks_preserves_inv (st : PlayerState) (fromIdx toIdx : Option Int)
    (hf : fromIdx = none ∨
      ∃ a, fromIdx = some a ∧ 0 ≤ a ∧ a < (st.tracks.length : Int))
    (ht : ∃ b, toIdx = some b ∧ 0 ≤ b ∧ b < (st.tracks.length : Int))
    (hinv : StateInv st) : StateInv (reorderTracks st fromIdx toIdx).1 := by
  obtain ⟨b, hbeq, hb0, hblen⟩ := ht
  subst hbeq
  rcases hf with hfnone | ⟨a, haeq, ha0, halen⟩
  · subst hfnone
    exact hinv
  · subst haeq
    by_cases hab : a = b
    · have hnoop : reorderTracks st (some a) (some b) = (st, false) := by
        simp [reorderTracks, hab]
      rw [hnoop]
      exact hinv
    · have hn : a.toNat < st.tracks.length := by omega
      have hm : b.toNat < st.tracks.length := by omega
      have hx : st.tracks[a.toNat]? = some (st.tracks.get ⟨a.toNat, hn⟩) := by
        simp [List.getElem?_eq_getElem hn]
      obtain ⟨_, _, hs3, _, _, _, _, _⟩ :=
        splice_move_spec st.tracks a.toNat b.toNat (st.tracks.get ⟨a.toNat, hn⟩) hn hm
      have hguard : ¬ (a = b ∨ a < 0 ∨ b < 0) := by
        rintro (h | h | h)
        · exact hab h
        · omega
        · omega
      have htracks : (reorderTracks st (some a) (some b)).1.tracks
          = (st.tracks.take a.toNat ++ st.tracks.drop (a.toNat + 1)).take b.toNat
            ++ st.tracks.get ⟨a.toNat, hn⟩
              :: (st.tracks.take a.toNat ++ st.tracks.drop (a.toNat + 1)).drop b.toNat := by
        simp only [reorderTracks, spliceRemoveOne, spliceInsertOne, hx, Option.join]
        rw [if_neg hguard]
        split <;> simp [saveOrder]
      have hci : (reorderTracks st (some a) (some b)).1.currentIndex
          = (if st.currentIndex = a then b
             else if a < st.currentIndex ∧ b ≥ st.currentIndex then st.currentIndex - 1
             else if a > st.currentIndex ∧ b ≤ st.currentIndex then st.currentIndex + 1
             else st.currentIndex) := by
        simp only [reorderTracks, spliceRemoveOne, spliceInsertOne, hx, Option.join]
        rw [if_neg hguard]
        split <;> simp [saveOrder]
      have hlen2 : (reorderTracks st (some a) (some b)).1.tracks.length
          = st.tracks.length := by
        rw [htracks]
        exact hs3
      obtain ⟨h1, h2⟩ := hinv
      unfold StateInv
      rw [hci, hlen2]
      split_ifs <;> constructor <;> omega

/-- Every reachable state satisfies the invariant. -/
theorem reach_inv (stored0 : Option String) (s : PlayerState)
    (h : Reach (initialState stored0) s) : StateInv s := by
  induction h with
  | refl => exact stateInv_initial stored0
  | tail _ hstep ih =>
    cases hstep with
    | refresh res => exact loadTracks_preserves_inv _ res ih
    | play => exact playFromCurrentOrTop_preserves_inv _ ih
    | stop => exact stopPlayback_preserves_inv _ ih
    | select i hlt => exact selectTrack_preserves_inv _ i hlt
    | ended => exact goToNextTrack_preserves_inv _ ih
    | move fromIdx toIdx hf ht => exact reorderTracks_preserves_inv _ fromIdx toIdx hf ht ih

/-- C8 counterexample: the claimed invariant (`stopped = false` implies
`0 ≤ currentIndex < length`) fails in a reachable state.  Load one track,
press Play (now `isStopped = false`, `currentIndex = 0`), then refresh against
a failing server: `loadTracks` clears the playlist and sets
`currentIndex = -1` but never touches `isStopped`, leaving a playing state
with an empty playlist. -/
theorem playback_invariant_counterexample :
    Reach (initialState none)
        (loadTracks
          (playFromCurrentOrTop
            (loadTracks (initialState none) (.ok ["audio/a.mp3"]))).1
          (.error "HTTP 500")) ∧
      (loadTracks
          (playFromCurrentOrTop
            (loadTracks (initialState none) (.ok ["audio/a.mp3"]))).1
          (.error "HTTP 500")).isStopped = false ∧
      ¬ (0 ≤ (loadTracks
            (playFromCurrentOrTop
              (loadTracks (initialState none) (.ok ["audio/a.mp3"]))).1
            (.error "HTTP 500")).currentIndex ∧
          (loadTracks
            (playFromCurrentOrTop
              (loadTracks (initialState none) (.ok ["audio/a.mp3"]))).1
            (.error "HTTP 500")).currentIndex
            < ((loadTracks
                (playFromCurrentOrTop
                  (loadTracks (initialState none) (.ok ["audio/a.mp3"]))).1
                (.error "HTTP 500")).tracks.length : Int)) :=
  ⟨Reach.tail
      (Reach.tail
        (Reach.tail (Reach.refl _) (Step.refresh _ (.ok ["audio/a.mp3"])))
        (Step.play _))
      (Step.refresh _ (.error "HTTP 500")),
    by decide, by decide⟩

/-- C8 (amended): in every state reachable by the public operations,
`currentIndex` is at least `-1` and is either `-1`, or the playlist is empty,
or a valid index — in particular this is all that `stopped = false`
guarantees.  The claimed stronger invariant `stopped = false →
0 ≤ currentIndex < length` fails after a refresh that errors (or comes back
empty or too short) while playing, because `loadTracks` resets the index and
playlist without setting the stopped flag
(see `playback_invariant_counterexample`). -/
theorem playback_invariant_reachable :
    ∀ (stored0 : Option String) (s : PlayerState),
      Reach (initialState stored0) s → s.isStopped = false →
      -1 ≤ s.currentIndex ∧
        (s.currentIndex = -1 ∨ s.tracks.length = 0 ∨
          s.currentIndex < (s.tracks.length : Int)) := by
  intro stored0 s h _
  exact reach_inv stored0 s h

/-- Witness for C8 at the end of a concrete three-step trace. -/
theorem playback_invariant_reachable_witness :
    (loadTracks
        (playFromCurrentOrTop
          (loadTracks (initialState none) (.ok ["audio/a.mp3"]))).1
        (.error "HTTP 500")).isStopped = false ∧
      (-1 ≤ (loadTracks
          (playFromCurrentOrTop
            (loadTracks (initialState none) (.ok ["audio/a.mp3"]))).1
          (.error "HTTP 500")).currentIndex ∧
        ((loadTracks
            (playFromCurrentOrTop
              (loadTracks (initialState none) (.ok ["audio/a.mp3"]))).1
            (.error "HTTP 500")).currentIndex = -1 ∨
          (loadTracks
            (playFromCurrentOrTop
              (loadTracks (initialState none) (.ok ["audio/a.mp3"]))).1
            (.error "HTTP 500")).tracks.length = 0 ∨
          (loadTracks
            (playFromCurrentOrTop
              (loadTracks (initialState none) (.ok ["audio/a.mp3"]))).1
            (.error "HTTP 500")).currentIndex
            < ((loadTracks
                (playFromCurrentOrTop
                  (loadTracks (initialState none) (.ok ["audio/a.mp3"]))).1
                (.error "HTTP 500")).tracks.length : Int))) :=
  ⟨by decide,
    playback_invariant_reachable none _
      (Reach.tail
        (Reach.tail
          (Reach.tail (Reach.refl _) (Step.refresh _ (.ok ["audio/a.mp3"])))
          (Step.play _))
        (Step.refresh _ (.error "HTTP 500")))
      (by decide)⟩

end AudioPlayer
